import Mathlib

/-!
Verification of the Graph Reducer of `ld_graph` (file `ld_graph/snp_graph.py`).

The development shallowly embeds `SNP_Graph.__init__` and
`SNP_Graph.create_reduced_graph`.  A directed weighted graph (networkx
`DiGraph`) is a node list plus a list of weighted directed edges; the
undirected reduced graph (networkx `Graph`) is a node list plus a list of
weighted undirected edges where `add_edge` on an existing unordered pair
overwrites the stored weight, exactly as networkx does.  Weights and the
distance threshold are natural numbers (the code treats weights as opaque
non-negative additive quantities; nothing below depends on divisibility or
on any real-number property).  A threshold of `none` models
`threshold=None`, i.e. an unbounded search.

The call `nx.single_source_dijkstra_path_length(G, u, cutoff, weight)` is
external library code; it is embedded by its contract: it yields every node
whose shortest-path distance from `u` is within the cutoff, paired with that
distance.  `distTo` below computes the minimum total weight over paths with
pairwise-distinct intermediate nodes, which for non-negative weights is the
shortest-path distance Dijkstra discovers.  The returned association list is
enumerated in the graph's node order; the Python dict is enumerated in
distance order, but the two orders produce the same reduced graph whenever
distinct bricks carry distinct canonical mutations (two entries of one
source's dict can target the same unordered mutation pair only when two
bricks share a canonical mutation).

Python exceptions (`KeyError`/`IndexError` from `bricks_to_muts[...][0]`,
`AssertionError` from `assert`, `ValueError` from `__init__`) are embedded
as `Except` errors, propagated in Python's evaluation order: the node-list
comprehension runs before the assert, and each edge's two lookups run
before `add_edge`.
-/

/-- A networkx `DiGraph` as the reducer consumes it: a list of nodes (in
networkx's insertion order) and a list of directed weighted edges
`(src, dst, weight)`. -/
structure DGraph where
  nodes : List Nat
  edges : List (Nat × Nat × Nat)
deriving DecidableEq

/-- All node ids known to the graph: declared nodes plus edge endpoints
(networkx `add_edge` inserts missing endpoints, so in any graph networkx
actually produces these coincide with `nodes`). -/
def DGraph.allIds (g : DGraph) : List Nat :=
  (g.nodes ++ (g.edges.map (fun e => e.1) ++ g.edges.map (fun e => e.2.1))).dedup

/-- Effective weight of the directed edge `a → c`: networkx stores one edge
per ordered pair, the last `add_edge` winning. -/
def weightOf (g : DGraph) (a c : Nat) : Option Nat :=
  ((g.edges.filter (fun e => e.1 == a && e.2.1 == c)).getLast?).map (fun e => e.2.2)

/-- Successors of `a` in the digraph. -/
def succs (g : DGraph) (a : Nat) : List Nat :=
  ((g.edges.filter (fun e => e.1 == a)).map (fun e => e.2.1)).dedup

/-- Minimum total weight of a path `a → b` whose intermediate nodes are
drawn (without repetition) from `allowed`; `fuel` bounds the recursion and
is instantiated to `allowed.length`, enough for every such path.  For
non-negative weights this minimum is the shortest-path distance. -/
def distAux (g : DGraph) : Nat → List Nat → Nat → Nat → Option Nat
  | 0, _, a, b => if a = b then some 0 else none
  | fuel + 1, allowed, a, b =>
    if a = b then some 0
    else
      (succs g a).foldl (fun acc c =>
        if c ∈ allowed then
          match weightOf g a c, distAux g fuel (allowed.erase c) c b with
          | some w, some d =>
            match acc with
            | none => some (w + d)
            | some x => some (min x (w + d))
          | _, _ => acc
        else acc) none

/-- Shortest-path distance from `a` to `b` over the digraph (the distance
`nx.single_source_dijkstra_path_length` discovers), `none` if unreachable. -/
def distTo (g : DGraph) (a b : Nat) : Option Nat :=
  distAux g g.allIds.length g.allIds a b

/-- Does distance `d` pass the cutoff?  `none` models `cutoff=None`. -/
def withinCutoff : Option Nat → Nat → Bool
  | none, _ => true
  | some t, d => decide (d ≤ t)

/-- Contract model of `nx.single_source_dijkstra_path_length(g, u, cutoff)`:
every node at shortest-path distance within the cutoff, with that distance. -/
def dijkstraLengths (g : DGraph) (u : Nat) (cutoff : Option Nat) : List (Nat × Nat) :=
  g.allIds.filterMap (fun k =>
    match distTo g u k with
    | some d => if withinCutoff cutoff d then some (k, d) else none
    | none => none)

/-- A networkx `Graph` (the reduced SNP graph): node list plus undirected
weighted edges, at most one stored record per unordered pair. -/
structure RGraph where
  nodes : List Nat
  edges : List (Nat × Nat × Nat)
deriving DecidableEq

/-- Does the stored edge record `e` represent the unordered pair `{a, b}`? -/
def samePair (e : Nat × Nat × Nat) (a b : Nat) : Bool :=
  (e.1 == a && e.2.1 == b) || (e.1 == b && e.2.1 == a)

/-- networkx `add_node`: appended only if absent. -/
def RGraph.addNode (R : RGraph) (a : Nat) : RGraph :=
  if a ∈ R.nodes then R else ⟨R.nodes ++ [a], R.edges⟩

/-- networkx `add_nodes_from`. -/
def RGraph.addNodesFrom (R : RGraph) (ns : List Nat) : RGraph :=
  ns.foldl RGraph.addNode R

/-- networkx `Graph.add_edge(a, b, weight=w)`: missing endpoints are added
as nodes; an existing record for the unordered pair `{a, b}` has its weight
overwritten, otherwise a new record is appended. -/
def RGraph.addEdge (R : RGraph) (a b w : Nat) : RGraph :=
  let R1 := (R.addNode a).addNode b
  if R1.edges.any (fun e => samePair e a b) then
    ⟨R1.nodes, R1.edges.map (fun e => if samePair e a b then (e.1, e.2.1, w) else e)⟩
  else
    ⟨R1.nodes, R1.edges ++ [(a, b, w)]⟩

/-- Weight stored for the unordered pair `{a, b}`, if any. -/
def RGraph.weight? (R : RGraph) (a b : Nat) : Option Nat :=
  (R.edges.find? (fun e => samePair e a b)).map (fun e => e.2.2)

/-- Is the unordered pair `{a, b}` an edge of the reduced graph? -/
def RGraph.adjacent (R : RGraph) (a b : Nat) : Bool :=
  R.edges.any (fun e => samePair e a b)

/-- Errors `create_reduced_graph` can raise: `lookupError` models the
`KeyError`/`IndexError` of an unchecked `self.bricks_to_muts[brick][0]`;
`assertionError` models `assert len(l_in) == len(l_out)` failing. -/
inductive ReduceError
  | lookupError
  | assertionError
deriving DecidableEq

/-- `self.bricks_to_muts[brick][0]` as a total lookup:
the canonical (first) mutation of a brick, if present and non-empty. -/
def firstMut (b2m : List (Nat × List Nat)) (brick : Nat) : Option Nat :=
  match b2m.lookup brick with
  | some ms => ms.head?
  | none => none

/-- `l_in = nodes[nodes % 4 == 2]` (in-role nodes, in node order). -/
def l_in (g : DGraph) : List Nat :=
  g.nodes.filter (fun n => n % 4 == 2)

/-- `l_out = nodes[nodes % 4 == 3]` (out-role nodes, in node order). -/
def l_out (g : DGraph) : List Nat :=
  g.nodes.filter (fun n => n % 4 == 3)

/-- The node-list comprehension
`[self.bricks_to_muts[node // 4][0] for node in l_out]`, evaluated left to
right, the first failing lookup raising. -/
def nodeMuts (b2m : List (Nat × List Nat)) : List Nat → Except ReduceError (List Nat)
  | [] => .ok []
  | n :: ns =>
    match firstMut b2m (n / 4) with
    | none => .error .lookupError
    | some m =>
      match nodeMuts b2m ns with
      | .ok ms => .ok (m :: ms)
      | .error e => .error e

/-- A Python `for` loop whose body may raise, threading the accumulator. -/
def foldE {α : Type} (f : RGraph → α → Except ReduceError RGraph) :
    RGraph → List α → Except ReduceError RGraph
  | R, [] => .ok R
  | R, x :: xs =>
    match f R x with
    | .ok R1 => foldE f R1 xs
    | .error e => .error e

/-- Body of the inner loop over `length.items()`: for a reached node `key`
with distance `value`, `if key % 4 == 2 and key // 4 != u // 4`, look up the
two canonical mutations (left to right, either lookup may raise) and
`R.add_edge(..., ..., weight=value)`. -/
def processKey (b2m : List (Nat × List Nat)) (u : Nat) (R : RGraph) (kv : Nat × Nat) :
    Except ReduceError RGraph :=
  if kv.1 % 4 == 2 && !(kv.1 / 4 == u / 4) then
    match firstMut b2m (u / 4) with
    | none => .error .lookupError
    | some a =>
      match firstMut b2m (kv.1 / 4) with
      | none => .error .lookupError
      | some b => .ok (R.addEdge a b kv.2)
  else .ok R

/-- One iteration of the outer loop `for u in tqdm(l_out)`: run the bounded
single-source search from `u` and process every reached node. -/
def processSource (g : DGraph) (b2m : List (Nat × List Nat)) (threshold : Option Nat)
    (R : RGraph) (u : Nat) : Except ReduceError RGraph :=
  foldE (processKey b2m u) R (dijkstraLengths g u threshold)

/-- `SNP_Graph.create_reduced_graph`: split the brick-graph nodes into
`l_in`/`l_out`, seed the reduced graph with the canonical mutation of every
out-bearing brick (the comprehension is evaluated before the assert), check
`len(l_in) == len(l_out)`, then run one cutoff-bounded search per source. -/
def createReducedGraph (g : DGraph) (b2m : List (Nat × List Nat)) (threshold : Option Nat) :
    Except ReduceError RGraph :=
  match nodeMuts b2m (l_out g) with
  | .error e => .error e
  | .ok rnodes =>
    let R := RGraph.addNodesFrom ⟨[], []⟩ rnodes
    if (l_in g).length = (l_out g).length then
      foldE (processSource g b2m threshold) R (l_out g)
    else .error .assertionError

/-- The write `for u` and reached `(key, value)` would perform, if its guard
passes and both lookups succeed: `(mut_of_u, mut_of_key, value)`. -/
def keyWrite (b2m : List (Nat × List Nat)) (u : Nat) (kv : Nat × Nat) :
    Option (Nat × Nat × Nat) :=
  if kv.1 % 4 == 2 && !(kv.1 / 4 == u / 4) then
    match firstMut b2m (u / 4), firstMut b2m (kv.1 / 4) with
    | some a, some b => some (a, b, kv.2)
    | _, _ => none
  else none

/-- All edge writes one source's traversal performs, in order. -/
def sourceWrites (g : DGraph) (b2m : List (Nat × List Nat)) (threshold : Option Nat)
    (u : Nat) : List (Nat × Nat × Nat) :=
  (dijkstraLengths g u threshold).filterMap (keyWrite b2m u)

/-- All edge writes of a full `create_reduced_graph` run, sources in
processing order. -/
def allWrites (g : DGraph) (b2m : List (Nat × List Nat)) (threshold : Option Nat) :
    List (Nat × Nat × Nat) :=
  (l_out g).foldr (fun u acc => sourceWrites g b2m threshold u ++ acc) []

/-- Replay one write against the reduced graph. -/
def applyWrite3 (R : RGraph) (w : Nat × Nat × Nat) : RGraph :=
  R.addEdge w.1 w.2.1 w.2.2

/-- The most recent write in `ws` touching the unordered pair `{a, b}`
(later writes shadow earlier ones). -/
def lastMatch (a b : Nat) : List (Nat × Nat × Nat) → Option (Nat × Nat × Nat)
  | [] => none
  | w :: ws =>
    match lastMatch a b ws with
    | some w1 => some w1
    | none => if samePair w a b then some w else none

/-- Weight of the most recent write touching `{a, b}`. -/
def lastWriteWeight (ws : List (Nat × Nat × Nat)) (a b : Nat) : Option Nat :=
  (lastMatch a b ws).map (fun w => w.2.2)

/-- The error `SNP_Graph.__init__` can raise: `ValueError("Tree sequence
must contain mutations")`. -/
inductive InitError
  | noMutations
deriving DecidableEq

/-- The slice of a tree sequence `__init__` consumes: its mutation count and
the brick→mutations mapping derivable from it. -/
structure BrickTS where
  num_mutations : Nat
  mut_edges : List (Nat × List Nat)

/-- Modelled from the spec: `utility.get_mut_edges` (the `utility` module is
not under `src/`) returns the ordered mapping labeled-brick-id → ordered
sequence of mutation ids attached to that brick; the model carries that
mapping as a field of the tree-sequence abstraction and returns it. -/
def get_mut_edges (ts : BrickTS) : List (Nat × List Nat) :=
  ts.mut_edges

/-- The state `__init__` leaves on `self` (the local `id_to_muts` and
`bricks_to_id` dictionaries are built and discarded; they cannot fail and
are not stored). -/
structure SNPGraphState where
  brick_graph : DGraph
  threshold : Option Nat
  bricks_to_muts : List (Nat × List Nat)
deriving DecidableEq

/-- `SNP_Graph.__init__`: store the brick graph and threshold, raise
`ValueError` if the tree sequence has no mutations — before any traversal
or graph construction — then compute `bricks_to_muts`. -/
def SNP_Graph_init (brick_graph : DGraph) (brick_ts : BrickTS) (threshold : Option Nat) :
    Except InitError SNPGraphState :=
  if brick_ts.num_mutations = 0 then .error .noMutations
  else .ok ⟨brick_graph, threshold, get_mut_edges brick_ts⟩

/-! ### Concrete instances used to witness the theorems below -/

/-- A brick graph with two labeled bricks 0 and 1 (nodes `in = 2, 6`,
`out = 3, 7`) whose out node of each brick reaches the in node of the other,
at asymmetric distances 5 and 9. -/
def exG : DGraph := ⟨[2, 3, 6, 7], [(3, 6, 5), (7, 2, 9)]⟩

/-- Brick 0 carries mutation 10, brick 1 carries mutation 20. -/
def exB2M : List (Nat × List Nat) := [(0, [10]), (1, [20])]

/-- The reduced graph of `exG` at threshold 100: the pair `{10, 20}` was
written with weight 5 by source 3 and then overwritten with 9 by source 7. -/
def exR : RGraph := ⟨[10, 20], [(10, 20, 9)]⟩

/-- The reduced graph of `exG` at threshold 7: only the weight-5 connection
passes the cutoff. -/
def exRlow : RGraph := ⟨[10, 20], [(10, 20, 5)]⟩

/-- A brick graph with an in node but no out node: `len(l_in) != len(l_out)`. -/
def exGin : DGraph := ⟨[2], []⟩

/-- A brick graph with an out node for brick 0 but no entry in the mapping:
the node-phase lookup raises. -/
def exGbad : DGraph := ⟨[3], []⟩

/-- The empty brick graph. -/
def exGempty : DGraph := ⟨[], []⟩

/-! ### Basic facts about unordered pair records -/

theorem samePair_iff (e : Nat × Nat × Nat) (a b : Nat) :
    samePair e a b = true ↔ (e.1 = a ∧ e.2.1 = b) ∨ (e.1 = b ∧ e.2.1 = a) := by
  simp [samePair, Bool.or_eq_true, Bool.and_eq_true, beq_iff_eq]

theorem samePair_comm (e : Nat × Nat × Nat) (a b : Nat) :
    samePair e a b = samePair e b a := by
  simp [samePair, Bool.or_comm]

theorem samePair_endpoints (x y w v a b : Nat) :
    samePair (x, y, w) a b = samePair (x, y, v) a b := rfl

theorem samePair_self (a b v : Nat) : samePair (a, b, v) a b = true := by
  simp [samePair]

theorem samePair_compat {a1 b1 v a b : Nat} (h : samePair (a1, b1, v) a b = true)
    (e : Nat × Nat × Nat) : samePair e a1 b1 = samePair e a b := by
  rcases (samePair_iff _ _ _).mp h with ⟨h1, h2⟩ | ⟨h1, h2⟩
  · simp only at h1 h2; rw [h1, h2]
  · simp only at h1 h2; rw [h1, h2, samePair_comm]

theorem pairEq {e : Nat × Nat × Nat} {a1 b1 a b : Nat} (h1 : samePair e a1 b1 = true)
    (h2 : samePair e a b = true) (v : Nat) : samePair (a1, b1, v) a b = true := by
  rcases (samePair_iff _ _ _).mp h1 with ⟨p1, p2⟩ | ⟨p1, p2⟩ <;>
    rcases (samePair_iff _ _ _).mp h2 with ⟨q1, q2⟩ | ⟨q1, q2⟩ <;>
    · apply (samePair_iff _ _ _).mpr
      simp only
      omega

/-! ### Facts about node insertion -/

theorem addNode_edges (R : RGraph) (a : Nat) : (R.addNode a).edges = R.edges := by
  unfold RGraph.addNode; split <;> rfl

theorem mem_addNode (R : RGraph) (a m : Nat) :
    m ∈ (R.addNode a).nodes ↔ m ∈ R.nodes ∨ m = a := by
  unfold RGraph.addNode
  split
  · rename_i h
    constructor
    · exact fun hm => Or.inl hm
    · rintro (hm | rfl)
      · exact hm
      · exact h
  · simp [List.mem_append]

theorem addNode_of_mem {R : RGraph} {a : Nat} (h : a ∈ R.nodes) : R.addNode a = R := by
  unfold RGraph.addNode
  simp [h]

theorem addNodesFrom_edges (ns : List Nat) : ∀ R : RGraph,
    (RGraph.addNodesFrom R ns).edges = R.edges := by
  induction ns with
  | nil => intro R; rfl
  | cons n ns ih =>
    intro R
    show (RGraph.addNodesFrom (R.addNode n) ns).edges = R.edges
    rw [ih, addNode_edges]

theorem mem_addNodesFrom (ns : List Nat) : ∀ (R : RGraph) (m : Nat),
    m ∈ (RGraph.addNodesFrom R ns).nodes ↔ m ∈ R.nodes ∨ m ∈ ns := by
  induction ns with
  | nil => intro R m; simp [RGraph.addNodesFrom]
  | cons n ns ih =>
    intro R m
    show m ∈ (RGraph.addNodesFrom (R.addNode n) ns).nodes ↔ _
    rw [ih, mem_addNode]
    simp [List.mem_cons]
    tauto

/-! ### Facts about `add_edge` -/

theorem addEdge_nodes_of_mem {R : RGraph} {a b : Nat} (v : Nat)
    (ha : a ∈ R.nodes) (hb : b ∈ R.nodes) : (R.addEdge a b v).nodes = R.nodes := by
  unfold RGraph.addEdge
  rw [addNode_of_mem ha, addNode_of_mem hb]
  dsimp only
  split <;> rfl

theorem find?_map_overwrite {a1 b1 v a b : Nat} (h : samePair (a1, b1, v) a b = true) :
    ∀ l : List (Nat × Nat × Nat), l.any (fun e => samePair e a b) = true →
      ((l.map (fun e => if samePair e a1 b1 then (e.1, e.2.1, v) else e)).find?
          (fun e => samePair e a b)).map (fun e => e.2.2) = some v := by
  intro l
  induction l with
  | nil => intro hany; simp at hany
  | cons e tl ih =>
    intro hany
    rcases he : samePair e a b with _ | _
    · have he1 : samePair e a1 b1 = false := by rw [samePair_compat h e, he]
      have htl : tl.any (fun e => samePair e a b) = true := by
        rcases List.any_eq_true.mp hany with ⟨x, hx, hpx⟩
        rcases List.mem_cons.mp hx with rfl | hx
        · rw [he] at hpx; exact absurd hpx (by simp)
        · exact List.any_eq_true.mpr ⟨x, hx, hpx⟩
      simpa [List.find?_cons, he1, he] using ih htl
    · have he1 : samePair e a1 b1 = true := by rw [samePair_compat h e, he]
      have hrep : samePair (e.1, e.2.1, v) a b = true := by
        rw [samePair_endpoints e.1 e.2.1 v e.2.2]
        exact he
      simp [List.find?_cons, he1, hrep]

theorem find?_map_preserve {a1 b1 v a b : Nat} (h : samePair (a1, b1, v) a b = false) :
    ∀ l : List (Nat × Nat × Nat),
      ((l.map (fun e => if samePair e a1 b1 then (e.1, e.2.1, v) else e)).find?
          (fun e => samePair e a b)).map (fun e => e.2.2) =
        (l.find? (fun e => samePair e a b)).map (fun e => e.2.2) := by
  intro l
  induction l with
  | nil => rfl
  | cons e tl ih =>
    have hend : samePair (if samePair e a1 b1 then (e.1, e.2.1, v) else e) a b
        = samePair e a b := by
      split
    
      · exact (samePair_endpoints e.1 e.2.1 v e.2.2 a b).trans rfl
      · rfl
    rcases he : samePair e a b with _ | _
    · rw [he] at hend
      simp only [List.map_cons, List.find?_cons, hend, he]
      exact ih
    · rw [he] at hend
      have he1 : samePair e a1 b1 = false := by
        rcases h1 : samePair e a1 b1 with _ | _
        · rfl
        · exact absurd (pairEq h1 he v) (by rw [h]; simp)
      simp [List.find?_cons, hend, he, he1]

theorem weight?_addEdge_same {a1 b1 v a b : Nat} (R : RGraph)
    (h : samePair (a1, b1, v) a b = true) :
    (R.addEdge a1 b1 v).weight? a b = some v := by
  unfold RGraph.addEdge RGraph.weight?
  dsimp only
  rw [addNode_edges, addNode_edges]
  split
  · rename_i hany
    have hany2 : R.edges.any (fun e => samePair e a b) = true := by
      rcases List.any_eq_true.mp hany with ⟨x, hx, hpx⟩
      exact List.any_eq_true.mpr ⟨x, hx, by rw [← samePair_compat h x]; exact hpx⟩
    exact find?_map_overwrite h R.edges hany2
  · rename_i hany
    have hnone : R.edges.find? (fun e => samePair e a b) = none := by
      rw [List.find?_eq_none]
      intro x hx hp
      exact hany (List.any_eq_true.mpr ⟨x, hx, by rw [samePair_compat h x]; exact hp⟩)
    rw [List.find?_append, hnone]
    simp [List.find?_cons, h]

theorem weight?_addEdge_other {a1 b1 v a b : Nat} (R : RGraph)
    (h : samePair (a1, b1, v) a b = false) :
    (R.addEdge a1 b1 v).weight? a b = R.weight? a b := by
  unfold RGraph.addEdge RGraph.weight?
  dsimp only
  rw [addNode_edges, addNode_edges]
  split
  · exact find?_map_preserve h R.edges
  · rw [List.find?_append]
    have : List.find? (fun e => samePair e a b) [(a1, b1, v)] = none := by
      simp [List.find?_cons, h]
    rw [this]
    rcases R.edges.find? (fun e => samePair e a b) with _ | e <;> rfl

theorem mem_edges_addEdge {R : RGraph} {a b v : Nat} {e : Nat × Nat × Nat}
    (he : e ∈ (R.addEdge a b v).edges) :
    e ∈ R.edges ∨ (samePair e a b = true ∧ e.2.2 = v) := by
  unfold RGraph.addEdge at he
  dsimp only at he
  rw [addNode_edges, addNode_edges] at he
  by_cases hany : R.edges.any (fun e => samePair e a b) = true
  case neg =>
    rw [if_neg hany] at he
    rcases List.mem_append.mp he with h1 | h1
    · exact Or.inl h1
    · rcases List.mem_cons.mp h1 with rfl | h2
      · exact Or.inr ⟨samePair_self a b v, rfl⟩
      · simp at h2
  case pos =>
    rw [if_pos hany] at he
    rcases List.mem_map.mp he with ⟨e0, he0, heq⟩
    by_cases h0 : samePair e0 a b = true
    · rw [if_pos h0] at heq
      refine Or.inr ?_
      subst heq
      constructor
      · rw [samePair_endpoints e0.1 e0.2.1 v e0.2.2]
        exact h0
      · rfl
    · rw [if_neg h0] at heq
      subst heq
      exact Or.inl he0

/-! ### Replaying a list of writes -/

theorem weight?_foldl_writes (a b : Nat) : ∀ (ws : List (Nat × Nat × Nat)) (R : RGraph),
    (List.foldl applyWrite3 R ws).weight? a b =
      match lastMatch a b ws with
      | some w => some w.2.2
      | none => R.weight? a b := by
  intro ws
  induction ws with
  | nil => intro R; rfl
  | cons w ws ih =>
    intro R
    show (List.foldl applyWrite3 (applyWrite3 R w) ws).weight? a b = _
    rw [ih]
    rcases hlm : lastMatch a b ws with _ | w1
    · show (applyWrite3 R w).weight? a b = _
      show (R.addEdge w.1 w.2.1 w.2.2).weight? a b = _
      rcases hw : samePair w a b with _ | _
      · have hw2 : samePair (w.1, w.2.1, w.2.2) a b = false := hw
        rw [weight?_addEdge_other R hw2]
        show _ = match lastMatch a b (w :: ws) with
          | some w => some w.2.2
          | none => R.weight? a b
        simp [lastMatch, hlm, hw]
      · have hw2 : samePair (w.1, w.2.1, w.2.2) a b = true := hw
        rw [weight?_addEdge_same R hw2]
        show _ = match lastMatch a b (w :: ws) with
          | some w => some w.2.2
          | none => R.weight? a b
        simp [lastMatch, hlm, hw]
    · show some w1.2.2 = _
      simp [lastMatch, hlm]

theorem mem_edges_foldl_writes {e : Nat × Nat × Nat} :
    ∀ (ws : List (Nat × Nat × Nat)) (R : RGraph),
      e ∈ (List.foldl applyWrite3 R ws).edges →
      e ∈ R.edges ∨ ∃ w ∈ ws, samePair e w.1 w.2.1 = true ∧ e.2.2 = w.2.2 := by
  intro ws
  induction ws with
  | nil => intro R h; exact Or.inl h
  | cons w ws ih =>
    intro R h
    rcases ih (applyWrite3 R w) h with h1 | ⟨w1, hw1, hp⟩
    · rcases mem_edges_addEdge h1 with h2 | ⟨hp, hv⟩
      · exact Or.inl h2
      · exact Or.inr ⟨w, List.mem_cons_self w ws, hp, hv⟩
    · exact Or.inr ⟨w1, List.mem_cons_of_mem w hw1, hp⟩

theorem nodes_foldl_writes : ∀ (ws : List (Nat × Nat × Nat)) (R : RGraph),
    (∀ w ∈ ws, w.1 ∈ R.nodes ∧ w.2.1 ∈ R.nodes) →
    (List.foldl applyWrite3 R ws).nodes = R.nodes := by
  intro ws
  induction ws with
  | nil => intro R _; rfl
  | cons w ws ih =>
    intro R hws
    obtain ⟨h1, h2⟩ := hws w (List.mem_cons_self w ws)
    have hstep : (applyWrite3 R w).nodes = R.nodes := addEdge_nodes_of_mem w.2.2 h1 h2
    show (List.foldl applyWrite3 (applyWrite3 R w) ws).nodes = R.nodes
    rw [ih (applyWrite3 R w) (fun x hx => by
      rw [hstep]; exact hws x (List.mem_cons_of_mem w hx)), hstep]

theorem lastMatch_isSome (a b : Nat) : ∀ ws : List (Nat × Nat × Nat),
    (lastMatch a b ws).isSome = true ↔ ∃ w ∈ ws, samePair w a b = true := by
  intro ws
  induction ws with
  | nil => simp [lastMatch]
  | cons w ws ih =>
    rcases hlm : lastMatch a b ws with _ | w1
    · rw [hlm] at ih
      rcases hw : samePair w a b with _ | _
      · simp only [lastMatch, hlm, hw, Bool.false_eq_true, if_false, Option.isSome_none,
          false_iff]
        rintro ⟨y, hy, hp⟩
        rcases List.mem_cons.mp hy with rfl | hy2
        · rw [hw] at hp; exact Bool.false_ne_true hp
        · have h2 : (none : Option (Nat × Nat × Nat)).isSome = true := ih.mpr ⟨y, hy2, hp⟩
          exact Bool.false_ne_true h2
      · simp only [lastMatch, hlm, hw, if_true, Option.isSome_some, true_iff]
        exact ⟨w, List.mem_cons_self w ws, hw⟩
    · simp only [lastMatch, hlm, Option.isSome_some, true_iff]
      rw [hlm] at ih
      rcases ih.mp rfl with ⟨y, hy, hp⟩
      exact ⟨y, List.mem_cons_of_mem w hy, hp⟩

theorem adjacent_iff_weight (R : RGraph) (a b : Nat) :
    R.adjacent a b = true ↔ (R.weight? a b).isSome = true := by
  unfold RGraph.adjacent RGraph.weight?
  rw [List.any_eq_true]
  constructor
  · rintro ⟨e, he, hp⟩
    rcases hf : R.edges.find? (fun e => samePair e a b) with _ | e1
    · rw [List.find?_eq_none] at hf
      exact absurd hp (by simp [hf e he])
    · simp
  · intro h
    rcases hf : R.edges.find? (fun e => samePair e a b) with _ | e1
    · rw [hf] at h; simp at h
    · have hp1 := List.find?_some hf
      exact ⟨e1, List.mem_of_find?_eq_some hf, hp1⟩

/-! ### Characterizing a successful run of the reducer -/

theorem processKey_ok {b2m : List (Nat × List Nat)} {u : Nat} {R R1 : RGraph}
    {kv : Nat × Nat} (h : processKey b2m u R kv = .ok R1) :
    R1 = match keyWrite b2m u kv with
      | some w => applyWrite3 R w
      | none => R := by
  unfold processKey at h
  by_cases hc : (kv.1 % 4 == 2 && !(kv.1 / 4 == u / 4)) = true
  · rw [if_pos hc] at h
    rcases h1 : firstMut b2m (u / 4) with _ | a
    · rw [h1] at h; exact absurd h (by simp)
    · rw [h1] at h
      rcases h2 : firstMut b2m (kv.1 / 4) with _ | b
      · rw [h2] at h; exact absurd h (by simp)
      · rw [h2] at h
        have hkw : keyWrite b2m u kv = some (a, b, kv.2) := by
          unfold keyWrite
          rw [if_pos hc, h1, h2]
        rw [hkw]
        exact (Except.ok.inj h).symm
  · rw [if_neg hc] at h
    have hkw : keyWrite b2m u kv = none := by
      unfold keyWrite
      rw [if_neg hc]
    rw [hkw]
    exact (Except.ok.inj h).symm

theorem foldE_keys_ok {b2m : List (Nat × List Nat)} {u : Nat} :
    ∀ (kvs : List (Nat × Nat)) (R R1 : RGraph),
      foldE (processKey b2m u) R kvs = .ok R1 →
      R1 = List.foldl applyWrite3 R (kvs.filterMap (keyWrite b2m u)) := by
  intro kvs
  induction kvs with
  | nil =>
    intro R R1 h
    exact (Except.ok.inj h).symm
  | cons kv kvs ih =>
    intro R R1 h
    unfold foldE at h
    rcases hpk : processKey b2m u R kv with e | R2
    · rw [hpk] at h; exact absurd h (by simp)
    · rw [hpk] at h
      have hR2 := processKey_ok hpk
      rcases hkw : keyWrite b2m u kv with _ | w
      · rw [hkw] at hR2
        subst hR2
        rw [List.filterMap_cons, hkw]
        exact ih _ R1 h
      · rw [hkw] at hR2
        subst hR2
        rw [List.filterMap_cons, hkw]
        exact ih _ R1 h

theorem foldE_sources_ok {g : DGraph} {b2m : List (Nat × List Nat)} {T : Option Nat} :
    ∀ (us : List Nat) (R R1 : RGraph),
      foldE (processSource g b2m T) R us = .ok R1 →
      R1 = List.foldl applyWrite3 R
        (us.foldr (fun u acc => sourceWrites g b2m T u ++ acc) []) := by
  intro us
  induction us with
  | nil =>
    intro R R1 h
    exact (Except.ok.inj h).symm
  | cons u us ih =>
    intro R R1 h
    unfold foldE at h
    rcases hps : processSource g b2m T R u with e | R2
    · rw [hps] at h; exact absurd h (by simp)
    · rw [hps] at h
      have hR2 : R2 = List.foldl applyWrite3 R (sourceWrites g b2m T u) :=
        foldE_keys_ok (dijkstraLengths g u T) R R2 hps
      rw [List.foldr_cons, List.foldl_append, ← hR2]
      exact ih R2 R1 h

theorem create_ok {g : DGraph} {b2m : List (Nat × List Nat)} {T : Option Nat} {R : RGraph}
    (h : createReducedGraph g b2m T = .ok R) :
    ∃ rnodes, nodeMuts b2m (l_out g) = .ok rnodes ∧
      (l_in g).length = (l_out g).length ∧
      R = List.foldl applyWrite3 (RGraph.addNodesFrom ⟨[], []⟩ rnodes)
        (allWrites g b2m T) := by
  unfold createReducedGraph at h
  rcases hnm : nodeMuts b2m (l_out g) with e | rnodes
  · rw [hnm] at h; exact absurd h (by simp)
  · rw [hnm] at h
    dsimp only at h
    by_cases hlen : (l_in g).length = (l_out g).length
    · rw [if_pos hlen] at h
      exact ⟨rnodes, rfl, hlen, foldE_sources_ok (l_out g) _ R h⟩
    · rw [if_neg hlen] at h
      exact absurd h (by simp)

/-! ### The node-phase lookups -/

theorem nodeMuts_ok_map {b2m : List (Nat × List Nat)} :
    ∀ {ns : List Nat} {ms : List Nat}, nodeMuts b2m ns = .ok ms →
      ms.map some = ns.map (fun n => firstMut b2m (n / 4)) := by
  intro ns
  induction ns with
  | nil =>
    intro ms h
    have h0 : ([] : List Nat) = ms := Except.ok.inj h
    subst h0
    rfl
  | cons n ns ih =>
    intro ms h
    unfold nodeMuts at h
    rcases h1 : firstMut b2m (n / 4) with _ | m
    · rw [h1] at h; exact absurd h (by simp)
    · rw [h1] at h
      rcases h2 : nodeMuts b2m ns with e | ms1
      · rw [h2] at h; exact absurd h (by simp)
      · rw [h2] at h
        have h0 : m :: ms1 = ms := Except.ok.inj h
        subst h0
        rw [List.map_cons, List.map_cons, ih h2, h1]

theorem nodeMuts_mem {b2m : List (Nat × List Nat)} {ns ms : List Nat}
    (h : nodeMuts b2m ns = .ok ms) (m : Nat) :
    m ∈ ms ↔ ∃ n ∈ ns, firstMut b2m (n / 4) = some m := by
  have hmap := nodeMuts_ok_map h
  constructor
  · intro hm
    have : some m ∈ ns.map (fun n => firstMut b2m (n / 4)) := by
      rw [← hmap]
      exact List.mem_map.mpr ⟨m, hm, rfl⟩
    rcases List.mem_map.mp this with ⟨n, hn, heq⟩
    exact ⟨n, hn, heq⟩
  · rintro ⟨n, hn, heq⟩
    have : some m ∈ ms.map some := by
      rw [hmap]
      exact List.mem_map.mpr ⟨n, hn, heq⟩
    rcases List.mem_map.mp this with ⟨m1, hm1, heq1⟩
    rw [← Option.some_inj.mp heq1]
    exact hm1

theorem nodeMuts_total {b2m : List (Nat × List Nat)} :
    ∀ {ns : List Nat}, (∀ n ∈ ns, (firstMut b2m (n / 4)).isSome = true) →
      ∃ ms, nodeMuts b2m ns = .ok ms := by
  intro ns
  induction ns with
  | nil => intro _; exact ⟨[], rfl⟩
  | cons n ns ih =>
    intro h
    rcases Option.isSome_iff_exists.mp (h n (List.mem_cons_self n ns)) with ⟨m, hm⟩
    rcases ih (fun x hx => h x (List.mem_cons_of_mem n hx)) with ⟨ms, hms⟩
    refine ⟨m :: ms, ?_⟩
    unfold nodeMuts
    rw [hm, hms]

/-! ### Membership characterizations -/

theorem mem_allWrites {g : DGraph} {b2m : List (Nat × List Nat)} {T : Option Nat}
    {w : Nat × Nat × Nat} :
    w ∈ allWrites g b2m T ↔ ∃ u ∈ l_out g, w ∈ sourceWrites g b2m T u := by
  unfold allWrites
  induction l_out g with
  | nil => simp
  | cons u us ih =>
    rw [List.foldr_cons, List.mem_append, ih]
    constructor
    · rintro (h | ⟨u1, hu1, hw⟩)
      · exact ⟨u, List.mem_cons_self u us, h⟩
      · exact ⟨u1, List.mem_cons_of_mem u hu1, hw⟩
    · rintro ⟨u1, hu1, hw⟩
      rcases List.mem_cons.mp hu1 with rfl | h2
      · exact Or.inl hw
      · exact Or.inr ⟨u1, h2, hw⟩

theorem keyWrite_some {b2m : List (Nat × List Nat)} {u : Nat} {kv : Nat × Nat}
    {w : Nat × Nat × Nat} (h : keyWrite b2m u kv = some w) :
    kv.1 % 4 = 2 ∧ kv.1 / 4 ≠ u / 4 ∧ firstMut b2m (u / 4) = some w.1 ∧
      firstMut b2m (kv.1 / 4) = some w.2.1 ∧ w.2.2 = kv.2 := by
  unfold keyWrite at h
  by_cases hc : (kv.1 % 4 == 2 && !(kv.1 / 4 == u / 4)) = true
  · rw [if_pos hc] at h
    rw [Bool.and_eq_true, beq_iff_eq, Bool.not_eq_eq_eq_not, Bool.not_true,
      beq_eq_false_iff_ne] at hc
    rcases h1 : firstMut b2m (u / 4) with _ | a
    · rw [h1] at h; simp at h
    · rw [h1] at h
      rcases h2 : firstMut b2m (kv.1 / 4) with _ | b
      · rw [h2] at h; simp at h
      · rw [h2] at h
        have hw : (a, b, kv.2) = w := Option.some_inj.mp h
        subst hw
        exact ⟨hc.1, hc.2, rfl, rfl, rfl⟩
  · rw [if_neg hc] at h
    simp at h

theorem keyWrite_total {b2m : List (Nat × List Nat)} {u : Nat} {kv : Nat × Nat}
    {a b : Nat} (hc : (kv.1 % 4 == 2 && !(kv.1 / 4 == u / 4)) = true)
    (h1 : firstMut b2m (u / 4) = some a) (h2 : firstMut b2m (kv.1 / 4) = some b) :
    keyWrite b2m u kv = some (a, b, kv.2) := by
  unfold keyWrite
  rw [if_pos hc, h1, h2]

theorem mem_dijkstraLengths {g : DGraph} {u : Nat} {c : Option Nat} {kv : Nat × Nat} :
    kv ∈ dijkstraLengths g u c ↔
      kv.1 ∈ g.allIds ∧ distTo g u kv.1 = some kv.2 ∧ withinCutoff c kv.2 = true := by
  unfold dijkstraLengths
  rw [List.mem_filterMap]
  constructor
  · rintro ⟨k, hk, hsome⟩
    rcases hd : distTo g u k with _ | d
    · rw [hd] at hsome; simp at hsome
    · rw [hd] at hsome
      dsimp only at hsome
      rcases hw : withinCutoff c d with _ | _
      · rw [hw] at hsome; simp at hsome
      · rw [hw] at hsome
        simp only [if_true] at hsome
        have hkv : (k, d) = kv := Option.some_inj.mp hsome
        subst hkv
        exact ⟨hk, hd, hw⟩
  · rintro ⟨hk, hd, hw⟩
    refine ⟨kv.1, hk, ?_⟩
    rw [hd]
    dsimp only
    rw [hw]
    rfl

theorem mem_nodes_allIds {g : DGraph} {n : Nat} (h : n ∈ g.nodes) : n ∈ g.allIds := by
  unfold DGraph.allIds
  rw [List.mem_dedup, List.mem_append]
  exact Or.inl h

theorem mem_l_out {g : DGraph} {n : Nat} :
    n ∈ l_out g ↔ n ∈ g.nodes ∧ n % 4 = 3 := by
  unfold l_out
  rw [List.mem_filter, beq_iff_eq]

theorem mem_l_in {g : DGraph} {n : Nat} :
    n ∈ l_in g ↔ n ∈ g.nodes ∧ n % 4 = 2 := by
  unfold l_in
  rw [List.mem_filter, beq_iff_eq]

/-! ### Totality of the per-source processing under the lookup precondition -/

theorem foldE_total {α : Type} {f : RGraph → α → Except ReduceError RGraph} :
    ∀ {xs : List α}, (∀ (R : RGraph), ∀ x ∈ xs, ∃ R1, f R x = .ok R1) →
      ∀ R : RGraph, ∃ R1, foldE f R xs = .ok R1 := by
  intro xs
  induction xs with
  | nil => intro _ R; exact ⟨R, rfl⟩
  | cons x xs ih =>
    intro h R
    rcases h R x (List.mem_cons_self x xs) with ⟨R1, hR1⟩
    rcases ih (fun R2 y hy => h R2 y (List.mem_cons_of_mem x hy)) R1 with ⟨R2, hR2⟩
    refine ⟨R2, ?_⟩
    unfold foldE
    rw [hR1]
    exact hR2

theorem processKey_total {g : DGraph} {b2m : List (Nat × List Nat)} {u : Nat}
    (hpre : ∀ n ∈ g.allIds, n % 4 = 2 ∨ n % 4 = 3 → (firstMut b2m (n / 4)).isSome = true)
    (hu : u ∈ g.allIds) (hu3 : u % 4 = 3) {c : Option Nat}
    (R : RGraph) (kv : Nat × Nat) (hkv : kv ∈ dijkstraLengths g u c) :
    ∃ R1, processKey b2m u R kv = .ok R1 := by
  unfold processKey
  by_cases hc : (kv.1 % 4 == 2 && !(kv.1 / 4 == u / 4)) = true
  · rw [if_pos hc]
    have hk2 : kv.1 % 4 = 2 := by
      rw [Bool.and_eq_true, beq_iff_eq] at hc
      exact hc.1
    have hk : kv.1 ∈ g.allIds := (mem_dijkstraLengths.mp hkv).1
    rcases Option.isSome_iff_exists.mp (hpre u hu (Or.inr hu3)) with ⟨a, ha⟩
    rcases Option.isSome_iff_exists.mp (hpre kv.1 hk (Or.inl hk2)) with ⟨b, hb⟩
    rw [ha, hb]
    exact ⟨R.addEdge a b kv.2, rfl⟩
  · rw [if_neg hc]
    exact ⟨R, rfl⟩

/-! ### Bridging lemmas -/

theorem allWrites_inv {g : DGraph} {b2m : List (Nat × List Nat)} {T : Option Nat}
    {w : Nat × Nat × Nat} (hw : w ∈ allWrites g b2m T) :
    ∃ u k, u ∈ l_out g ∧ k ∈ g.allIds ∧ k % 4 = 2 ∧ k / 4 ≠ u / 4 ∧
      firstMut b2m (u / 4) = some w.1 ∧ firstMut b2m (k / 4) = some w.2.1 ∧
      distTo g u k = some w.2.2 ∧ withinCutoff T w.2.2 = true := by
  rcases mem_allWrites.mp hw with ⟨u, hu, hsw⟩
  unfold sourceWrites at hsw
  rcases List.mem_filterMap.mp hsw with ⟨kv, hkv, hkw⟩
  obtain ⟨hk2, hne, hfu, hfk, hv⟩ := keyWrite_some hkw
  obtain ⟨hkmem, hdist, hwc⟩ := mem_dijkstraLengths.mp hkv
  refine ⟨u, kv.1, hu, hkmem, hk2, hne, hfu, hfk, ?_, ?_⟩
  · rw [hv]; exact hdist
  · rw [hv]; exact hwc

theorem create_weight_eq {g : DGraph} {b2m : List (Nat × List Nat)} {T : Option Nat}
    {R : RGraph} (hok : createReducedGraph g b2m T = .ok R) (a b : Nat) :
    R.weight? a b = lastWriteWeight (allWrites g b2m T) a b := by
  obtain ⟨rnodes, hnm, hlen, hR⟩ := create_ok hok
  subst hR
  rw [weight?_foldl_writes a b (allWrites g b2m T)]
  unfold lastWriteWeight
  rcases hlm : lastMatch a b (allWrites g b2m T) with _ | w
  · simp only [hlm]
    unfold RGraph.weight?
    rw [addNodesFrom_edges]
    rfl
  · simp only [hlm]
    rfl

theorem lastWriteWeight_isSome (ws : List (Nat × Nat × Nat)) (a b : Nat) :
    (lastWriteWeight ws a b).isSome = true ↔ ∃ w ∈ ws, samePair w a b = true := by
  unfold lastWriteWeight
  rw [← lastMatch_isSome a b ws]
  rcases lastMatch a b ws with _ | w <;> simp

/-! ### The claims -/

/-- C1: in any successful run of `create_reduced_graph`, every edge of the
returned Reduced Graph joins the canonical (first) mutations of two distinct
bricks — a source out node `u` and a reached in node `k` of another brick
found by the cutoff-bounded single-source shortest-path search — and its
stored weight is exactly that discovered shortest-path distance, which
passes the cutoff, so no edge weight exceeds the threshold. -/
theorem reduced_edge_is_bounded_shortest_path (g : DGraph) (b2m : List (Nat × List Nat))
    (T : Option Nat) (R : RGraph) (hok : createReducedGraph g b2m T = .ok R)
    (e : Nat × Nat × Nat) (he : e ∈ R.edges) :
    ∃ u k, u ∈ l_out g ∧ k % 4 = 2 ∧ k / 4 ≠ u / 4 ∧
      distTo g u k = some e.2.2 ∧ withinCutoff T e.2.2 = true ∧
      ((firstMut b2m (u / 4) = some e.1 ∧ firstMut b2m (k / 4) = some e.2.1) ∨
       (firstMut b2m (u / 4) = some e.2.1 ∧ firstMut b2m (k / 4) = some e.1)) := by
  obtain ⟨rnodes, hnm, hlen, hR⟩ := create_ok hok
  subst hR
  rcases mem_edges_foldl_writes (allWrites g b2m T) _ he with h0 | ⟨w, hw, hsp, hv⟩
  · rw [addNodesFrom_edges] at h0
    exact absurd h0 (List.not_mem_nil e)
  obtain ⟨u, k, hu, hk, hk2, hne, hfu, hfk, hdist, hwc⟩ := allWrites_inv hw
  refine ⟨u, k, hu, hk2, hne, ?_, ?_, ?_⟩
  · rw [hv]; exact hdist
  · rw [hv]; exact hwc
  · rcases (samePair_iff e w.1 w.2.1).mp hsp with ⟨p1, p2⟩ | ⟨p1, p2⟩
    · exact Or.inl ⟨by rw [← p1] at hfu; exact hfu, by rw [← p2] at hfk; exact hfk⟩
    · exact Or.inr ⟨by rw [← p2] at hfu; exact hfu, by rw [← p1] at hfk; exact hfk⟩

/-- C2: the weight stored for any unordered mutation pair in a successful
run is the weight of the most recent write touching that pair — sources are
processed in `l_out` order and later writes overwrite earlier ones — not the
minimum and not the first-seen weight. -/
theorem reduced_weight_is_last_write (g : DGraph) (b2m : List (Nat × List Nat))
    (T : Option Nat) (R : RGraph) (hok : createReducedGraph g b2m T = .ok R)
    (a b : Nat) : R.weight? a b = lastWriteWeight (allWrites g b2m T) a b :=
  create_weight_eq hok a b

/-- C3: under the brick-graph invariant that every brick with an in node
also has its out node among the graph's nodes, the node set of a successful
run's Reduced Graph is exactly the canonical mutation of each out-bearing
brick; the characterization does not mention the threshold, so the node set
does not depend on it, and the edge writes add no nodes beyond those seeded
before the search loop. -/
theorem reduced_nodes_are_out_brick_muts (g : DGraph) (b2m : List (Nat × List Nat))
    (T : Option Nat) (R : RGraph)
    (hpair : ∀ n ∈ g.allIds, n % 4 = 2 → 4 * (n / 4) + 3 ∈ g.nodes)
    (hok : createReducedGraph g b2m T = .ok R) (m : Nat) :
    m ∈ R.nodes ↔ ∃ n ∈ g.nodes, n % 4 = 3 ∧ firstMut b2m (n / 4) = some m := by
  obtain ⟨rnodes, hnm, hlen, hR⟩ := create_ok hok
  subst hR
  have hbase : ∀ x, x ∈ (RGraph.addNodesFrom ⟨[], []⟩ rnodes).nodes ↔ x ∈ rnodes := by
    intro x
    rw [mem_addNodesFrom]
    simp
  have hws : ∀ w ∈ allWrites g b2m T,
      w.1 ∈ (RGraph.addNodesFrom ⟨[], []⟩ rnodes).nodes ∧
      w.2.1 ∈ (RGraph.addNodesFrom ⟨[], []⟩ rnodes).nodes := by
    intro w hw
    obtain ⟨u, k, hu, hk, hk2, hne, hfu, hfk, hdist, hwc⟩ := allWrites_inv hw
    constructor
    · rw [hbase, nodeMuts_mem hnm]
      exact ⟨u, hu, hfu⟩
    · rw [hbase, nodeMuts_mem hnm]
      have hout : 4 * (k / 4) + 3 ∈ g.nodes := hpair k hk hk2
      refine ⟨4 * (k / 4) + 3, mem_l_out.mpr ⟨hout, by omega⟩, ?_⟩
      have hdiv : (4 * (k / 4) + 3) / 4 = k / 4 := by omega
      rw [hdiv]
      exact hfk
  rw [nodes_foldl_writes (allWrites g b2m T) _ hws, hbase, nodeMuts_mem hnm]
  constructor
  · rintro ⟨n, hn, hfm⟩
    rw [mem_l_out] at hn
    exact ⟨n, hn.1, hn.2, hfm⟩
  · rintro ⟨n, hn, h3, hfm⟩
    exact ⟨n, mem_l_out.mpr ⟨hn, h3⟩, hfm⟩

/-- C4: same-brick pairs are excluded by the `key // 4 != u // 4` guard, so
when distinct bricks carry distinct canonical mutations — as mutation
attachments guarantee — no edge of a successful run's Reduced Graph is a
self-loop: no mutation is connected to itself. -/
theorem reduced_has_no_self_loop (g : DGraph) (b2m : List (Nat × List Nat))
    (T : Option Nat) (R : RGraph)
    (hinj : ∀ n ∈ g.allIds, ∀ n1 ∈ g.allIds, n / 4 ≠ n1 / 4 →
      firstMut b2m (n / 4) ≠ firstMut b2m (n1 / 4))
    (hok : createReducedGraph g b2m T = .ok R)
    (e : Nat × Nat × Nat) (he : e ∈ R.edges) : e.1 ≠ e.2.1 := by
  obtain ⟨rnodes, hnm, hlen, hR⟩ := create_ok hok
  subst hR
  rcases mem_edges_foldl_writes (allWrites g b2m T) _ he with h0 | ⟨w, hw, hsp, hv⟩
  · rw [addNodesFrom_edges] at h0
    exact absurd h0 (List.not_mem_nil e)
  obtain ⟨u, k, hu, hk, hk2, hne, hfu, hfk, hdist, hwc⟩ := allWrites_inv hw
  have hu1 : u ∈ g.allIds := mem_nodes_allIds (mem_l_out.mp hu).1
  have hune : w.1 ≠ w.2.1 := by
    intro hcontra
    apply hinj u hu1 k hk (Ne.symm hne)
    rw [hfu, hfk, hcontra]
  rcases (samePair_iff e w.1 w.2.1).mp hsp with ⟨p1, p2⟩ | ⟨p1, p2⟩
  · rw [p1, p2]; exact hune
  · rw [p1, p2]; exact hune.symm

/-- C5: constructing `SNP_Graph` raises the zero-mutation `ValueError`
exactly when the tree sequence carries no mutations; the check runs before
`bricks_to_muts` is computed and before any traversal, and with at least one
mutation the constructor returns the initialized state instead. -/
theorem init_rejects_zero_mutations (g : DGraph) (ts : BrickTS) (T : Option Nat) :
    SNP_Graph_init g ts T = .error .noMutations ↔ ts.num_mutations = 0 := by
  unfold SNP_Graph_init
  by_cases h : ts.num_mutations = 0
  · rw [if_pos h]
    simp [h]
  · rw [if_neg h]
    simp [h]

/-- C6: the reducer splits the brick-graph nodes by `n mod 4` into `l_in`
and `l_out`, and whenever their counts differ the run ends in an error —
the failing assert, or the lookup error raised while building the node list
that Python evaluates first — so no Reduced Graph at all is returned to the
caller on this path. -/
theorem length_mismatch_returns_no_graph (g : DGraph) (b2m : List (Nat × List Nat))
    (T : Option Nat) (R : RGraph)
    (hlen : (l_in g).length ≠ (l_out g).length) :
    createReducedGraph g b2m T ≠ .ok R := by
  unfold createReducedGraph
  rcases hnm : nodeMuts b2m (l_out g) with e | rnodes
  · simp
  · dsimp only
    rw [if_neg hlen]
    simp

/-- C7: for numeric thresholds `T1 < T2` on the same brick graph and
mapping, every mutation pair adjacent in the Reduced Graph computed at `T1`
is adjacent in the one computed at `T2`: lowering the threshold never adds
an edge, because each write needs its shortest-path distance to pass the
cutoff and the writes at `T1` are among the writes at `T2`. -/
theorem threshold_monotone_edges (g : DGraph) (b2m : List (Nat × List Nat))
    (T1 T2 : Nat) (R1 R2 : RGraph) (hT : T1 < T2)
    (h1 : createReducedGraph g b2m (some T1) = .ok R1)
    (h2 : createReducedGraph g b2m (some T2) = .ok R2)
    (a b : Nat) (hadj : R1.adjacent a b = true) : R2.adjacent a b = true := by
  rw [adjacent_iff_weight] at hadj ⊢
  rw [create_weight_eq h1] at hadj
  rw [create_weight_eq h2]
  rw [lastWriteWeight_isSome] at hadj ⊢
  obtain ⟨w, hw, hsp⟩ := hadj
  refine ⟨w, ?_, hsp⟩
  rw [mem_allWrites] at hw ⊢
  obtain ⟨u, hu, hsw⟩ := hw
  refine ⟨u, hu, ?_⟩
  unfold sourceWrites at hsw ⊢
  rw [List.mem_filterMap] at hsw ⊢
  obtain ⟨kv, hkv, hkw⟩ := hsw
  refine ⟨kv, ?_, hkw⟩
  rw [mem_dijkstraLengths] at hkv ⊢
  refine ⟨hkv.1, hkv.2.1, ?_⟩
  have hle : kv.2 ≤ T1 := of_decide_eq_true hkv.2.2
  exact decide_eq_true (le_trans hle (le_of_lt hT))

/-- C8: the reducer is deterministic: two runs on the same brick graph,
mapping and threshold return Reduced Graphs with the same node list and the
same stored weight for every mutation pair; the processing order — and with
it the overwrite outcome — is fixed by the input graph's node order. -/
theorem reducer_deterministic (g : DGraph) (b2m : List (Nat × List Nat))
    (T : Option Nat) (R1 R2 : RGraph)
    (h1 : createReducedGraph g b2m T = .ok R1)
    (h2 : createReducedGraph g b2m T = .ok R2) (a b : Nat) :
    R1.nodes = R2.nodes ∧ R1.weight? a b = R2.weight? a b := by
  have heq : R1 = R2 := Except.ok.inj (h1.symm.trans h2)
  subst heq
  exact ⟨rfl, rfl⟩

/-- C9: under the upstream invariants — every in or out node's brick has a
canonical mutation, and `l_in` and `l_out` have equal length — the reducer
cannot fail: it returns a Reduced Graph; an empty brick graph yields the
empty Reduced Graph, and when no search produces a write the Reduced Graph
has no edges at all. -/
theorem degenerate_input_is_not_an_error (g : DGraph) (b2m : List (Nat × List Nat))
    (T : Option Nat)
    (hpre : ∀ n ∈ g.allIds, n % 4 = 2 ∨ n % 4 = 3 → (firstMut b2m (n / 4)).isSome = true)
    (hlen : (l_in g).length = (l_out g).length) :
    ∃ R, createReducedGraph g b2m T = .ok R ∧
      (l_out g = [] → R.nodes = [] ∧ R.edges = []) ∧
      (allWrites g b2m T = [] → R.edges = []) := by
  obtain ⟨rnodes, hnm⟩ := nodeMuts_total
    (fun n hn => hpre n (mem_nodes_allIds (mem_l_out.mp hn).1) (Or.inr (mem_l_out.mp hn).2))
  have htot : ∀ (R : RGraph), ∀ u ∈ l_out g, ∃ R1, processSource g b2m T R u = .ok R1 := by
    intro R u hu
    unfold processSource
    exact foldE_total (fun R2 kv hkv => processKey_total hpre
      (mem_nodes_allIds (mem_l_out.mp hu).1) (mem_l_out.mp hu).2 R2 kv hkv) R
  obtain ⟨R, hR⟩ := foldE_total htot (RGraph.addNodesFrom ⟨[], []⟩ rnodes)
  have hok : createReducedGraph g b2m T = .ok R := by
    unfold createReducedGraph
    rw [hnm]
    dsimp only
    rw [if_pos hlen]
    exact hR
  have hchar : R = List.foldl applyWrite3 (RGraph.addNodesFrom ⟨[], []⟩ rnodes)
      (allWrites g b2m T) := foldE_sources_ok (l_out g) _ R hR
  refine ⟨R, hok, ?_, ?_⟩
  · intro hempty
    have hrn : rnodes = [] := by
      rw [hempty] at hnm
      exact (Except.ok.inj hnm).symm
    have hwr : allWrites g b2m T = [] := by
      unfold allWrites
      rw [hempty]
      rfl
    rw [hchar, hrn, hwr]
    exact ⟨rfl, rfl⟩
  · intro hwempty
    rw [hchar, hwempty]
    show (RGraph.addNodesFrom ⟨[], []⟩ rnodes).edges = []
    rw [addNodesFrom_edges]

/-- C10: `create_reduced_graph` performs every `bricks_to_muts[n // 4][0]`
lookup unchecked; when every in or out node's brick is a key of the mapping
with a non-empty mutation list, no lookup can fail and the run never ends in
the lookup error; a brick graph violating the precondition (an out node
whose brick is unmapped) fails with the raw lookup error — before the
length assert, hence not with the diagnostic invariant violation. -/
theorem lookup_precondition_makes_lookups_safe (g : DGraph)
    (b2m : List (Nat × List Nat)) (T : Option Nat)
    (hpre : ∀ n ∈ g.allIds, n % 4 = 2 ∨ n % 4 = 3 → (firstMut b2m (n / 4)).isSome = true) :
    createReducedGraph g b2m T ≠ .error .lookupError ∧
      createReducedGraph exGbad [] none = .error .lookupError := by
  refine ⟨?_, rfl⟩
  obtain ⟨rnodes, hnm⟩ := nodeMuts_total
    (fun n hn => hpre n (mem_nodes_allIds (mem_l_out.mp hn).1) (Or.inr (mem_l_out.mp hn).2))
  unfold createReducedGraph
  rw [hnm]
  dsimp only
  by_cases hlen : (l_in g).length = (l_out g).length
  · rw [if_pos hlen]
    have htot : ∀ (R : RGraph), ∀ u ∈ l_out g, ∃ R1, processSource g b2m T R u = .ok R1 := by
      intro R u hu
      unfold processSource
      exact foldE_total (fun R2 kv hkv => processKey_total hpre
        (mem_nodes_allIds (mem_l_out.mp hu).1) (mem_l_out.mp hu).2 R2 kv hkv) R
    obtain ⟨R, hR⟩ := foldE_total htot (RGraph.addNodesFrom ⟨[], []⟩ rnodes)
    rw [hR]
    simp
  · rw [if_neg hlen]
    simp

/-! ### Witnesses: the claim theorems applied at the concrete instances -/

/-- The C1 theorem at `exG`, threshold 100, on the single stored edge
`(10, 20, 9)`. -/
theorem reduced_edge_is_bounded_shortest_path_witness :
    ∃ u k, u ∈ l_out exG ∧ k % 4 = 2 ∧ k / 4 ≠ u / 4 ∧
      distTo exG u k = some 9 ∧ withinCutoff (some 100) 9 = true ∧
      ((firstMut exB2M (u / 4) = some 10 ∧ firstMut exB2M (k / 4) = some 20) ∨
       (firstMut exB2M (u / 4) = some 20 ∧ firstMut exB2M (k / 4) = some 10)) :=
  reduced_edge_is_bounded_shortest_path exG exB2M (some 100) exR rfl (10, 20, 9) (by decide)

/-- The C2 theorem at `exG`: the stored weight 9 is the latest of the two
writes `(10, 20, 5)` and `(20, 10, 9)`, not the minimum 5. -/
theorem reduced_weight_is_last_write_witness :
    exR.weight? 10 20 = lastWriteWeight (allWrites exG exB2M (some 100)) 10 20 :=
  reduced_weight_is_last_write exG exB2M (some 100) exR rfl 10 20

/-- The C3 theorem at `exG` for mutation 10. -/
theorem reduced_nodes_are_out_brick_muts_witness :
    10 ∈ exR.nodes ↔ ∃ n ∈ exG.nodes, n % 4 = 3 ∧ firstMut exB2M (n / 4) = some 10 :=
  reduced_nodes_are_out_brick_muts exG exB2M (some 100) exR (by decide) rfl 10

/-- The C4 theorem at `exG` on the stored edge `(10, 20, 9)`. -/
theorem reduced_has_no_self_loop_witness : (10 : Nat) ≠ 20 :=
  reduced_has_no_self_loop exG exB2M (some 100) exR (by decide) rfl (10, 20, 9) (by decide)

/-- The C6 theorem on a brick graph with one in node and no out node. -/
theorem length_mismatch_returns_no_graph_witness :
    createReducedGraph exGin [(0, [5])] none ≠ .ok ⟨[], []⟩ :=
  length_mismatch_returns_no_graph exGin [(0, [5])] none ⟨[], []⟩ (by decide)

/-- The C7 theorem between thresholds 7 and 100 on `exG`. -/
theorem threshold_monotone_edges_witness : exR.adjacent 10 20 = true :=
  threshold_monotone_edges exG exB2M 7 100 exRlow exR (by decide) rfl rfl 10 20 rfl

/-- The C8 theorem on two (identical) runs at threshold 100 on `exG`. -/
theorem reducer_deterministic_witness :
    exR.nodes = exR.nodes ∧ exR.weight? 10 20 = exR.weight? 10 20 :=
  reducer_deterministic exG exB2M (some 100) exR exR rfl rfl 10 20

/-- The C9 theorem on the empty brick graph at threshold 0. -/
theorem degenerate_input_is_not_an_error_witness :
    ∃ R, createReducedGraph exGempty [] (some 0) = .ok R ∧
      (l_out exGempty = [] → R.nodes = [] ∧ R.edges = []) ∧
      (allWrites exGempty [] (some 0) = [] → R.edges = []) :=
  degenerate_input_is_not_an_error exGempty [] (some 0) (by decide) (by decide)

/-- The C10 theorem at `exG`, whose mapping covers both bricks. -/
theorem lookup_precondition_makes_lookups_safe_witness :
    createReducedGraph exG exB2M (some 100) ≠ .error .lookupError ∧
      createReducedGraph exGbad [] none = .error .lookupError :=
  lookup_precondition_makes_lookups_safe exG exB2M (some 100) (by decide)
